import Mathlib

set_option maxHeartbeats 1000000

/-!
Verification of the task-graph engine in `src/bokehjs/make/task.ts`: a
memoizing dependency-graph task runner with a two-variant result algebra,
suffix-wildcard name resolution, and per-run memoized recursive execution.

The embedding is a faithful translation of the source: asynchronous actions
become descriptions of their awaited outcome (reject with an error, resolve
with `undefined`, or resolve with a `Result`), the per-run mutable state
(memoization cache and the stream of reporter events) is threaded explicitly,
thrown JavaScript exceptions become a `thrown` outcome, and the potentially
non-terminating recursion of `_run` is indexed by fuel, with a `timeout`
outcome when the fuel is exhausted.
-/

namespace TaskRunner

/-- JavaScript error values: `BuildError(component, message)` from the source,
or any other error an action may reject with (identified opaquely). -/
inductive JSError where
  | buildError (component : String) (message : String)
  | jsError (tag : Nat)
deriving DecidableEq, Repr

/-- Values carried by `Success`: `undefined` or an opaque object. -/
inductive Value where
  | undef
  | obj (tag : Nat)
deriving DecidableEq, Repr

/-- Source `Result<T> = Success<T> | Failure<T>`. -/
inductive Result where
  | success (value : Value)
  | failure (error : JSError)
deriving DecidableEq, Repr

/-- Source `Success.is_Success` / `Failure.is_Success`. -/
def Result.is_Success : Result → Bool
  | .success _ => true
  | .failure _ => false

/-- Source `Success.is_Failure` / `Failure.is_Failure`. -/
def Result.is_Failure : Result → Bool
  | .success _ => false
  | .failure _ => true

/-- Awaited outcome of a task's action `fn : () => Promise<Result | void>`:
it rejects with an error, resolves with `undefined`, or resolves with an
explicit `Result`. -/
inductive ActionSpec where
  | throws (e : JSError)
  | retUndef
  | retResult (r : Result)
deriving DecidableEq, Repr

/-- Source `class Task { name, deps, fn? }`. -/
structure Task where
  name : String
  deps : List String
  fn : Option ActionSpec
deriving DecidableEq, Repr

/-- The registry `tasks : Map<string, Task>`, as its entry list in insertion
order; `tasks.values()` iterates this list. -/
abbrev Registry := List Task

/-- Single-character split: the semantics of JavaScript `String.split(":")`
on the character list of the string. -/
def splitCols : List Char → List (List Char)
  | [] => [[]]
  | c :: cs =>
    if c = ':' then [] :: splitCols cs
    else
      match splitCols cs with
      | [] => [[c]]
      | p :: ps => (c :: p) :: ps

/-- JavaScript `name.split(":", 2)`: the full split truncated to its first
two elements. -/
def nameParts (name : String) : List String :=
  ((splitCols name.data).take 2).map (fun l => String.mk l)

/-- JavaScript `s.endsWith(pat)`. -/
def jsEndsWith (s pat : String) : Bool :=
  pat.data.isSuffixOf s.data

/-- JavaScript template interpolation of a string that may be `undefined`. -/
def jsShow : Option String → String
  | none => "undefined"
  | some s => s

/-- Message of the `BuildError` thrown by `resolve_task` on an unknown name
(chalk coloring elided, as external formatting). -/
def unknown_message (name : String) (parent : Option Task) : String :=
  "unknown task '" ++ name ++ "'" ++
    (match parent with
     | none => ""
     | some p => " referenced from '" ++ p.name ++ "'")

/-- Source `resolve_task(name, parent?)`: split the name with `split(":", 2)`; a `*`
first component filters the registry in order by name suffix; an exact
registered name yields that single task; anything else throws a `BuildError`.
The generator either throws before yielding anything or yields a fixed finite
sequence, so it is embedded as `Except` of the yielded list. -/
def resolve_task (reg : Registry) (name : String) (parent : Option Task) :
    Except JSError (List Task) :=
  if (nameParts name).headD "" = "*" then
    .ok (reg.filter (fun t => jsEndsWith t.name (":" ++ jsShow (nameParts name)[1]?)))
  else
    match reg.find? (fun t => t.name == name) with
    | some t => .ok [t]
    | none => .error (.buildError "build" (unknown_message name parent))

/-- Reporter events observable during one run, in emission order: the log
lines of `exec_task` (start, finish with outcome), the actual invocation of a
task's action, and `show_failure` (with the task whose `_run` reported it).
Wall-clock durations are elided as external. -/
inductive Event where
  | started (t : Task)
  | invoked (t : Task)
  | finished (t : Task) (ok : Bool)
  | finishedNoAction (t : Task)
  | failureShown (t : Task) (e : JSError)
deriving DecidableEq, Repr

/-- Source `exec_task(task)`: with no action, log completion and succeed with
`undefined`; with an action, log the start, await the action — capturing a
rejection into a `Failure`, wrapping a `void` resolution into
`Success(undefined)`, passing an explicit `Result` through unchanged — and
log the finish with the outcome tag. -/
def exec_task (t : Task) : Result × List Event :=
  match t.fn with
  | none => (.success .undef, [.finishedNoAction t])
  | some a =>
    let r : Result :=
      match a with
      | .throws e => .failure e
      | .retUndef => .success .undef
      | .retResult r => r
    (r, [.started t, .invoked t, .finished t r.is_Success])

/-- Per-run mutable state: the memoization cache `finished` (association list
in insertion order, keyed by task identity) and the emitted events. -/
structure RS where
  finished : List (Task × Result)
  events : List Event
deriving DecidableEq, Repr

/-- Source `finished.get(task)` preceded by `finished.has(task)`. -/
def lookupFin : List (Task × Result) → Task → Option Result
  | [], _ => none
  | (u, r) :: rest, t => if u = t then some r else lookupFin rest t

/-- Source `finished.set(task, result)`: overwrite in place, else append. -/
def setFin : List (Task × Result) → Task → Result → List (Task × Result)
  | [], t, r => [(t, r)]
  | (u, r') :: rest, t, r =>
    if u = t then (t, r) :: rest else (u, r') :: setFin rest t r

/-- Outcome of an asynchronous computation in the engine: the promise
resolves, the promise rejects with a thrown error, or the fuel ran out
(the source recursion would not have returned). -/
inductive Out (α : Type) where
  | ok (a : α)
  | thrown (e : JSError)
  | timeout
deriving DecidableEq, Repr

/-- The inner loop of `_run` over the tasks resolved from one dependency
pattern: execute each via `step` (recursion into `_run`), accumulating the
`failed` flag; a thrown error or exhausted fuel propagates. -/
def tasksRunWith (step : Task → RS → Out Result × RS) :
    List Task → Bool → RS → Out Bool × RS
  | [], failed, s => (.ok failed, s)
  | d :: ds, failed, s =>
    match step d s with
    | (.ok r, s') => tasksRunWith step ds (failed || r.is_Failure) s'
    | (.thrown e, s') => (.thrown e, s')
    | (.timeout, s') => (.timeout, s')

/-- The outer loop of `_run` over `task.deps`: resolve each pattern with the
task as requester (a resolution failure is thrown), then run the resolved
tasks. -/
def depsRunWith (reg : Registry) (step : Task → RS → Out Result × RS)
    (parent : Task) : List String → Bool → RS → Out Bool × RS
  | [], failed, s => (.ok failed, s)
  | nm :: rest, failed, s =>
    match resolve_task reg nm (some parent) with
    | .error e => (.thrown e, s)
    | .ok ts =>
      match tasksRunWith step ts failed s with
      | (.ok f', s') => depsRunWith reg step parent rest f' s'
      | (.thrown e, s') => (.thrown e, s')
      | (.timeout, s') => (.timeout, s')

/-- The synthesized result of a task all of whose dependencies resolved but
at least one of which failed: a `BuildError` naming the task itself. -/
def depsFailedResult (t : Task) : Result :=
  .failure (.buildError t.name ("task '" ++ t.name ++ "' failed"))

/-- The tail of `_run` after the dependency loop: compute the task's result
(executing the action only when no dependency failed), store it in the cache,
and report it via `show_failure` when it is a failure. -/
def finalizeTask (t : Task) (failed : Bool) (s' : RS) : Out Result × RS :=
  let (result, evs) :=
    if failed then (depsFailedResult t, ([] : List Event)) else exec_task t
  let shown : List Event :=
    match result with
    | .failure e => [.failureShown t e]
    | .success _ => []
  (.ok result, ⟨setFin s'.finished t result, s'.events ++ evs ++ shown⟩)

/-- Source `_run(task)`: return a cached result immediately; otherwise run all
dependency patterns in order, then either execute the task's action (no
dependency failed) or synthesize a `BuildError` failure naming the task
itself; store the result in the cache, and report it if it is a failure. -/
def taskRun (reg : Registry) : Nat → Task → RS → Out Result × RS
  | 0 => fun _ s => (.timeout, s)
  | fuel + 1 => fun t s =>
    match lookupFin s.finished t with
    | some r => (.ok r, s)
    | none =>
      match depsRunWith reg (taskRun reg fuel) t t.deps false s with
      | (.ok failed, s') => finalizeTask t failed s'
      | (.thrown e, s') => (.thrown e, s')
      | (.timeout, s') => (.timeout, s')

/-- The top-level loop of `run` over the tasks resolved from one requested
name: `_run` each; the first `Failure` result short-circuits. -/
def runTop (reg : Registry) (fuel : Nat) : List Task → RS → Out (Option Result) × RS
  | [], s => (.ok none, s)
  | t :: ts, s =>
    match taskRun reg fuel t s with
    | (.ok r, s') =>
      if r.is_Failure then (.ok (some r), s') else runTop reg fuel ts s'
    | (.thrown e, s') => (.thrown e, s')
    | (.timeout, s') => (.timeout, s')

/-- The loop of `run` over the requested names: resolve each with no
requester (a resolution failure is thrown out of `run`), run the resolved
tasks, and return the first `Failure` immediately; otherwise
`Success(undefined)`. -/
def runNames (reg : Registry) (fuel : Nat) : List String → RS → Out Result × RS
  | [], s => (.ok (.success .undef), s)
  | nm :: rest, s =>
    match resolve_task reg nm none with
    | .error e => (.thrown e, s)
    | .ok ts =>
      match runTop reg fuel ts s with
      | (.ok none, s') => runNames reg fuel rest s'
      | (.ok (some r), s') => (.ok r, s')
      | (.thrown e, s') => (.thrown e, s')
      | (.timeout, s') => (.timeout, s')

/-- Source `run(...names)`: fresh memoization cache, no events emitted yet. -/
def run (reg : Registry) (fuel : Nat) (names : List String) : Out Result × RS :=
  runNames reg fuel names ⟨[], []⟩

/-! ### Cache lemmas -/

theorem lookupFin_setFin_self (l : List (Task × Result)) (t : Task) (r : Result) :
    lookupFin (setFin l t r) t = some r := by
  induction l with
  | nil => simp [setFin, lookupFin]
  | cons p rest ih =>
    obtain ⟨u, r'⟩ := p
    by_cases h : u = t
    · simp [setFin, h, lookupFin]
    · simp [setFin, h, lookupFin, ih]

theorem lookupFin_setFin_ne (l : List (Task × Result)) (t u : Task) (r : Result)
    (h : u ≠ t) : lookupFin (setFin l t r) u = lookupFin l u := by
  induction l with
  | nil => simp [setFin, lookupFin, Ne.symm h]
  | cons p rest ih =>
    obtain ⟨v, r'⟩ := p
    by_cases hv : v = t
    · subst hv
      simp [setFin, lookupFin, Ne.symm h]
    · simp [setFin, lookupFin, hv, ih]

/-! ### Counting reporter events -/

/-- Recognizer for `failureShown` events attributed to a given task. -/
def isShownFor (u : Task) : Event → Bool
  | .failureShown v _ => v == u
  | _ => false

/-- Number of failure-detail reports attributed to task `u` in an event log. -/
def cntShown (evs : List Event) (u : Task) : Nat :=
  (evs.filter (isShownFor u)).length

theorem cntShown_append (l₁ l₂ : List Event) (u : Task) :
    cntShown (l₁ ++ l₂) u = cntShown l₁ u + cntShown l₂ u := by
  simp [cntShown, List.filter_append]

/-- The failure-detail reports a transition from `s` to `s'` owes task `u`:
one exactly when `u` moves from uncached to cached-with-a-`Failure`. -/
def shownDelta (s s' : RS) (u : Task) : Nat :=
  match lookupFin s.finished u, lookupFin s'.finished u with
  | none, some (.failure _) => 1
  | _, _ => 0

/-! ### The run invariant

`Step reg rank b s s'` bundles everything a segment of a run (under a ranking
function witnessing acyclicity of the resolved dependency relation) does to
the state: the cache grows monotonically with newly cached tasks drawn from
the registry at rank below `b`, events are only appended, an action is
invoked only when its task transitions from uncached to cached and at most
once, invocations of already-cached tasks never recur, start/finish events
pair up exactly with invocations, tasks without an action are never invoked,
and failure-detail reports appear exactly for tasks newly cached with a
`Failure`. -/
structure Step (reg : Registry) (rank : Task → Nat) (b : Nat) (s s' : RS) : Prop where
  mono : ∀ u r, lookupFin s.finished u = some r → lookupFin s'.finished u = some r
  evApp : ∃ d, s'.events = s.events ++ d
  newBound : ∀ u, lookupFin s.finished u = none → lookupFin s'.finished u ≠ none →
    u ∈ reg ∧ rank u < b
  invNew : ∀ u, s.events.count (.invoked u) < s'.events.count (.invoked u) →
    lookupFin s.finished u = none ∧ lookupFin s'.finished u ≠ none
  noReinv : ∀ u, lookupFin s.finished u ≠ none →
    s'.events.count (.invoked u) = s.events.count (.invoked u)
  invOnce : ∀ u, s'.events.count (.invoked u) ≤ s.events.count (.invoked u) + 1
  startInv : ∀ u, s'.events.count (.started u) + s.events.count (.invoked u)
    = s'.events.count (.invoked u) + s.events.count (.started u)
  finInv : ∀ u, s'.events.count (.finished u true) + s'.events.count (.finished u false)
      + s.events.count (.invoked u)
    = s'.events.count (.invoked u)
      + (s.events.count (.finished u true) + s.events.count (.finished u false))
  noFnInv : ∀ u, u.fn = none →
    s'.events.count (.invoked u) = s.events.count (.invoked u)
  shownInv : ∀ u, cntShown s'.events u = cntShown s.events u + shownDelta s s' u

theorem shownDelta_self (s : RS) (u : Task) : shownDelta s s u = 0 := by
  unfold shownDelta
  cases h : lookupFin s.finished u with
  | none => simp [h]
  | some r => simp [h]

theorem Step.refl (reg : Registry) (rank : Task → Nat) (b : Nat) (s : RS) :
    Step reg rank b s s where
  mono _ _ h := h
  evApp := ⟨[], by simp⟩
  newBound u h1 h2 := absurd h1 h2
  invNew u h := absurd h (lt_irrefl _)
  noReinv _ _ := rfl
  invOnce _ := Nat.le_succ _
  startInv _ := by omega
  finInv _ := by omega
  noFnInv _ _ := rfl
  shownInv u := by simp [shownDelta_self]

theorem Step.weaken {reg rank b b' s s'} (hb : b ≤ b')
    (h : Step reg rank b s s') : Step reg rank b' s s' :=
  { h with newBound := fun u h1 h2 =>
      ⟨(h.newBound u h1 h2).1, lt_of_lt_of_le (h.newBound u h1 h2).2 hb⟩ }

theorem shownDelta_comp {reg rank b₁ b₂} {s s₁ s' : RS}
    (h1 : Step reg rank b₁ s s₁) (h2 : Step reg rank b₂ s₁ s') (u : Task) :
    shownDelta s s' u = shownDelta s s₁ u + shownDelta s₁ s' u := by
  cases h0 : lookupFin s.finished u with
  | some r =>
    have hs1 := h1.mono u r h0
    have hs' := h2.mono u r hs1
    simp [shownDelta, h0, hs1, hs']
  | none =>
    cases hm : lookupFin s₁.finished u with
    | some r =>
      have hs' := h2.mono u r hm
      simp [shownDelta, h0, hm, hs']
    | none =>
      simp [shownDelta, h0, hm]

theorem Step.comp {reg rank b₁ b₂} {s s₁ s' : RS}
    (h1 : Step reg rank b₁ s s₁) (h2 : Step reg rank b₂ s₁ s') :
    Step reg rank (max b₁ b₂) s s' where
  mono u r h := h2.mono u r (h1.mono u r h)
  evApp := by
    obtain ⟨d1, e1⟩ := h1.evApp
    obtain ⟨d2, e2⟩ := h2.evApp
    exact ⟨d1 ++ d2, by rw [e2, e1, List.append_assoc]⟩
  newBound u hn hs := by
    cases hm : lookupFin s₁.finished u with
    | some r =>
      have h := h1.newBound u hn (by simp [hm])
      exact ⟨h.1, lt_of_lt_of_le h.2 (le_max_left _ _)⟩
    | none =>
      have h := h2.newBound u hm hs
      exact ⟨h.1, lt_of_lt_of_le h.2 (le_max_right _ _)⟩
  invNew u hlt := by
    obtain ⟨d1, e1⟩ := h1.evApp
    have hle : s.events.count (.invoked u) ≤ s₁.events.count (.invoked u) := by
      rw [e1, List.count_append]; omega
    rcases lt_or_eq_of_le hle with hlt1 | heq
    · obtain ⟨ha, hb⟩ := h1.invNew u hlt1
      refine ⟨ha, ?_⟩
      cases hm : lookupFin s₁.finished u with
      | none => exact absurd hm hb
      | some r => simp [h2.mono u r hm]
    · rw [heq] at hlt
      obtain ⟨ha, hb⟩ := h2.invNew u hlt
      refine ⟨?_, hb⟩
      cases h0 : lookupFin s.finished u with
      | none => rfl
      | some r => rw [h1.mono u r h0] at ha; exact absurd ha (by simp)
  noReinv u hne := by
    obtain ⟨r, hr⟩ := Option.ne_none_iff_exists'.mp hne
    have hm := h1.mono u r hr
    rw [h2.noReinv u (by simp [hm]), h1.noReinv u hne]
  invOnce u := by
    by_cases hlt : s.events.count (.invoked u) < s₁.events.count (.invoked u)
    · obtain ⟨_, hb⟩ := h1.invNew u hlt
      rw [h2.noReinv u hb]
      exact h1.invOnce u
    · obtain ⟨d1, e1⟩ := h1.evApp
      have hle : s.events.count (.invoked u) ≤ s₁.events.count (.invoked u) := by
        rw [e1, List.count_append]; omega
      have heq : s₁.events.count (.invoked u) = s.events.count (.invoked u) := by omega
      have := h2.invOnce u
      omega
  startInv u := by
    have a1 := h1.startInv u
    have a2 := h2.startInv u
    omega
  finInv u := by
    have a1 := h1.finInv u
    have a2 := h2.finInv u
    omega
  noFnInv u hf := by rw [h2.noFnInv u hf, h1.noFnInv u hf]
  shownInv u := by
    rw [h2.shownInv u, h1.shownInv u, shownDelta_comp h1 h2 u]
    omega

/-- The elementary transition of the engine: store a result for a previously
uncached registered task and append its report events. The count hypotheses
describe the appended events; every state change of a run is a composition of
such transitions. -/
theorem Step.write (reg : Registry) (rank : Task → Nat) (t : Task) (res : Result)
    (d : List Event) (s : RS) (ht : t ∈ reg)
    (hnone : lookupFin s.finished t = none)
    (hstc : ∀ u, d.count (.invoked u) = d.count (.started u))
    (hfnc : ∀ u, d.count (.finished u true) + d.count (.finished u false)
      = d.count (.invoked u))
    (hinvt : ∀ u, d.count (.invoked u) ≤ if t = u then 1 else 0)
    (hfn : t.fn = none → ∀ u, d.count (.invoked u) = 0)
    (hshown : ∀ u, cntShown d u
      = if t = u then (if res.is_Failure then 1 else 0) else 0) :
    Step reg rank (rank t + 1) s ⟨setFin s.finished t res, s.events ++ d⟩ where
  mono u r h := by
    have hne : u ≠ t := by
      intro he; subst he; rw [h] at hnone; exact Option.noConfusion hnone
    simpa [lookupFin_setFin_ne _ _ _ _ hne] using h
  evApp := ⟨d, rfl⟩
  newBound u h1 h2 := by
    by_cases he : u = t
    · subst he; exact ⟨ht, Nat.lt_succ_self _⟩
    · rw [lookupFin_setFin_ne _ _ _ _ he] at h2
      exact absurd h1 h2
  invNew u h := by
    simp only [List.count_append] at h
    have hpos : 0 < d.count (.invoked u) := by omega
    have := hinvt u
    by_cases he : t = u
    · subst he; simp [hnone, lookupFin_setFin_self]
    · simp [he] at this; omega
  noReinv u h := by
    have hne : t ≠ u := by
      intro he; subst he; exact h hnone
    have := hinvt u
    simp only [List.count_append]
    simp [hne] at this
    omega
  invOnce u := by
    have := hinvt u
    simp only [List.count_append]
    by_cases he : t = u <;> simp [he] at this <;> omega
  startInv u := by
    have := hstc u
    simp only [List.count_append]
    omega
  finInv u := by
    have := hfnc u
    simp only [List.count_append]
    omega
  noFnInv u hf := by
    simp only [List.count_append]
    by_cases he : t = u
    · subst he; simp [hfn hf]
    · have := hinvt u; simp [he] at this; omega
  shownInv u := by
    rw [cntShown_append]
    have := hshown u
    by_cases he : t = u
    · subst he
      simp only [shownDelta, hnone, lookupFin_setFin_self]
      cases res with
      | success v => simp [Result.is_Failure] at this; simp [this]
      | failure e => simp [Result.is_Failure] at this; simp [this]
    · rw [this]
      simp only [shownDelta]
      rw [lookupFin_setFin_ne _ _ _ _ (Ne.symm he)]
      cases hx : lookupFin s.finished u with
      | none => simp [he]
      | some r => simp [he]

theorem beq_false_of_ne {a b : Task} (h : a ≠ b) : (a == b) = false := by
  cases hd : a == b with
  | false => rfl
  | true => exact absurd (eq_of_beq hd) h

/-- The final step of a cache-missing `_run` satisfies the run invariant. -/
theorem step_finalizeTask (reg : Registry) (rank : Task → Nat) (t : Task)
    (failed : Bool) (s : RS) (ht : t ∈ reg)
    (hnone : lookupFin s.finished t = none) :
    Step reg rank (rank t + 1) s (finalizeTask t failed s).2 := by
  cases failed with
  | true =>
    have h := Step.write reg rank t (depsFailedResult t)
      [.failureShown t (.buildError t.name ("task '" ++ t.name ++ "' failed"))] s ht hnone
      (by intro u; simp [List.count_cons])
      (by intro u; simp [List.count_cons])
      (by intro u
          by_cases he : t = u
          · subst he; simp [List.count_cons]
          · simp [List.count_cons, he])
      (by intro _ u; simp [List.count_cons])
      (by intro u
          by_cases he : t = u
          · subst he; simp [cntShown, isShownFor, depsFailedResult, Result.is_Failure]
          · simp [cntShown, isShownFor, beq_false_of_ne he, he])
    simpa [finalizeTask, depsFailedResult] using h
  | false =>
    cases hf : t.fn with
    | none =>
      have h := Step.write reg rank t (.success .undef) [.finishedNoAction t] s ht hnone
        (by intro u; simp [List.count_cons])
        (by intro u; simp [List.count_cons])
        (by intro u
            by_cases he : t = u
            · subst he; simp [List.count_cons]
            · simp [List.count_cons, he])
        (by intro _ u; simp [List.count_cons])
        (by intro u; simp [cntShown, isShownFor, Result.is_Failure])
      simpa [finalizeTask, exec_task, hf] using h
    | some a =>
      have hfn : ¬ t.fn = none := by rw [hf]; exact fun hc => Option.noConfusion hc
      have key : ∀ (res : Result),
          Step reg rank (rank t + 1) s
            ⟨setFin s.finished t res,
             s.events ++ ([.started t, .invoked t, .finished t res.is_Success] ++
               (match res with
                | .failure e => [.failureShown t e]
                | .success _ => ([] : List Event)))⟩ := by
        intro res
        have h := Step.write reg rank t res
          ([.started t, .invoked t, .finished t res.is_Success] ++
            (match res with
             | .failure e => [.failureShown t e]
             | .success _ => ([] : List Event))) s ht hnone
          (by intro u
              cases res <;> simp [List.count_cons, Result.is_Success, List.count_append])
          (by intro u
              by_cases he : t = u <;>
                cases res <;>
                  simp [List.count_cons, Result.is_Success, List.count_append, he])
          (by intro u
              by_cases he : t = u
              · subst he
                cases res <;>
                  simp [List.count_cons, Result.is_Success, List.count_append]
              · cases res <;>
                  simp [List.count_cons, Result.is_Success, List.count_append, he])
          (fun hc => absurd hc hfn)
          (by intro u
              by_cases he : t = u
              · subst he
                cases res <;>
                  simp [cntShown, isShownFor, Result.is_Failure, List.filter_append]
              · cases res <;>
                  simp [cntShown, isShownFor, List.filter_append,
                    beq_false_of_ne he, he])
        exact h
      have hexec : finalizeTask t false s =
          (.ok (exec_task t).1,
           ⟨setFin s.finished t (exec_task t).1,
            s.events ++ ((exec_task t).2 ++
              (match (exec_task t).1 with
               | .failure e => [.failureShown t e]
               | .success _ => ([] : List Event)))⟩) := by
        simp [finalizeTask, List.append_assoc]
      have hev : (exec_task t).2 =
          [.started t, .invoked t, .finished t (exec_task t).1.is_Success] := by
        simp [exec_task, hf]
      rw [hexec, hev]
      exact key (exec_task t).1

/-- Every task produced by `resolve_task` is drawn from the registry. -/
theorem resolve_mem (reg : Registry) (nm : String) (parent : Option Task)
    (l : List Task) (h : resolve_task reg nm parent = .ok l) :
    ∀ u ∈ l, u ∈ reg := by
  intro u hu
  unfold resolve_task at h
  split at h
  · cases h; exact (List.mem_filter.mp hu).1
  · split at h
    · cases h
      rename_i t hfind
      rw [List.mem_singleton.mp hu]
      exact List.mem_of_find?_eq_some hfind
    · exact Except.noConfusion h

/-- The inner loop of `_run` over the tasks resolved from one pattern
preserves the run invariant, given that each recursive call does. -/
theorem step_tasksRunWith (reg : Registry) (rank : Task → Nat) (B : Nat)
    (step : Task → RS → Out Result × RS)
    (hstep : ∀ d s, d ∈ reg → rank d < B →
      Step reg rank (rank d + 1) s (step d s).2) :
    ∀ (l : List Task) (fl : Bool) (s : RS),
      (∀ d ∈ l, d ∈ reg ∧ rank d < B) →
      Step reg rank B s (tasksRunWith step l fl s).2 := by
  intro l
  induction l with
  | nil => intro fl s _; exact Step.refl reg rank B s
  | cons d ds ih =>
    intro fl s h
    have hd := h d (List.mem_cons_self d ds)
    have h1 : Step reg rank B s (step d s).2 :=
      (hstep d s hd.1 hd.2).weaken hd.2
    rcases hs : step d s with ⟨o, s'⟩
    rw [hs] at h1
    cases o with
    | ok r =>
      have h2 := ih (fl || r.is_Failure) s' (fun u hu => h u (List.mem_cons_of_mem d hu))
      have hc := h1.comp h2
      rw [max_self] at hc
      simpa [tasksRunWith, hs] using hc
    | thrown e => simpa [tasksRunWith, hs] using h1
    | timeout => simpa [tasksRunWith, hs] using h1

/-- The outer loop of `_run` over the dependency patterns preserves the run
invariant, given that patterns resolve below the bound and recursive calls
behave. -/
theorem step_depsRunWith (reg : Registry) (rank : Task → Nat) (B : Nat)
    (step : Task → RS → Out Result × RS) (parent : Task)
    (hstep : ∀ d s, d ∈ reg → rank d < B →
      Step reg rank (rank d + 1) s (step d s).2) :
    ∀ (ds : List String) (fl : Bool) (s : RS),
      (∀ nm ∈ ds, ∀ l, resolve_task reg nm (some parent) = .ok l →
        ∀ u ∈ l, u ∈ reg ∧ rank u < B) →
      Step reg rank B s (depsRunWith reg step parent ds fl s).2 := by
  intro ds
  induction ds with
  | nil => intro fl s _; exact Step.refl reg rank B s
  | cons nm rest ih =>
    intro fl s h
    cases hres : resolve_task reg nm (some parent) with
    | error e => simpa [depsRunWith, hres] using Step.refl reg rank B s
    | ok ts =>
      have h1 := step_tasksRunWith reg rank B step hstep ts fl s
        (fun u hu => h nm (List.mem_cons_self nm rest) ts hres u hu)
      rcases hts : tasksRunWith step ts fl s with ⟨o, s'⟩
      rw [hts] at h1
      cases o with
      | ok f' =>
        have h2 := ih f' s' (fun x hx l hl u hu => h x (List.mem_cons_of_mem nm hx) l hl u hu)
        have hc := h1.comp h2
        rw [max_self] at hc
        simpa [depsRunWith, hres, hts] using hc
      | thrown e => simpa [depsRunWith, hres, hts] using h1
      | timeout => simpa [depsRunWith, hres, hts] using h1

/-- Hypothesis that `rank` witnesses acyclicity of the resolved dependency
relation over the registry: every task a dependency pattern of `t` resolves
to ranks strictly below `t`. -/
def RankedReg (reg : Registry) (rank : Task → Nat) : Prop :=
  ∀ t ∈ reg, ∀ nm ∈ t.deps, ∀ l, resolve_task reg nm (some t) = .ok l →
    ∀ u ∈ l, rank u < rank t

/-- Main invariant theorem: one `_run` call on a registered task, at any
fuel, is a `Step` bounded by the task's own rank. -/
theorem step_taskRun (reg : Registry) (rank : Task → Nat)
    (hrank : RankedReg reg rank) :
    ∀ (fuel : Nat) (t : Task) (s : RS), t ∈ reg →
      Step reg rank (rank t + 1) s (taskRun reg fuel t s).2 := by
  intro fuel
  induction fuel with
  | zero => intro t s _; exact Step.refl reg rank (rank t + 1) s
  | succ fuel ih =>
    intro t s ht
    cases hl : lookupFin s.finished t with
    | some r => simpa [taskRun, hl] using Step.refl reg rank (rank t + 1) s
    | none =>
      have hstep : ∀ d s', d ∈ reg → rank d < rank t →
          Step reg rank (rank d + 1) s' (taskRun reg fuel d s').2 :=
        fun d s' hd _ => ih d s' hd
      have hdeps := step_depsRunWith reg rank (rank t) (taskRun reg fuel) t hstep
        t.deps false s
        (fun nm hnm l hl u hu =>
          ⟨resolve_mem reg nm (some t) l hl u hu, hrank t ht nm hnm l hl u hu⟩)
      rcases hd : depsRunWith reg (taskRun reg fuel) t t.deps false s with ⟨o, s₁⟩
      rw [hd] at hdeps
      cases o with
      | ok failed =>
        have hnone1 : lookupFin s₁.finished t = none := by
          cases hx : lookupFin s₁.finished t with
          | none => rfl
          | some r =>
            have := hdeps.newBound t hl (by simp [hx])
            exact absurd this.2 (lt_irrefl _)
        have hw := step_finalizeTask reg rank t failed s₁ ht hnone1
        have hc := (hdeps.weaken (Nat.le_succ _)).comp hw
        rw [max_self] at hc
        simpa [taskRun, hl, hd] using hc
      | thrown e => simpa [taskRun, hl, hd] using hdeps.weaken (Nat.le_succ _)
      | timeout => simpa [taskRun, hl, hd] using hdeps.weaken (Nat.le_succ _)

/-- The top-level loop over one requested name's resolved tasks keeps the
run invariant, with any bound dominating the whole registry. -/
theorem step_runTop (reg : Registry) (rank : Task → Nat) (B : Nat)
    (hrank : RankedReg reg rank) (hB : ∀ t ∈ reg, rank t < B) (fuel : Nat) :
    ∀ (ts : List Task) (s : RS), (∀ t ∈ ts, t ∈ reg) →
      Step reg rank B s (runTop reg fuel ts s).2 := by
  intro ts
  induction ts with
  | nil => intro s _; exact Step.refl reg rank B s
  | cons t ts ih =>
    intro s h
    have ht := h t (List.mem_cons_self t ts)
    have h1 : Step reg rank B s (taskRun reg fuel t s).2 :=
      (step_taskRun reg rank hrank fuel t s ht).weaken (hB t ht)
    rcases hs : taskRun reg fuel t s with ⟨o, s'⟩
    rw [hs] at h1
    cases o with
    | ok r =>
      cases hfail : r.is_Failure with
      | true => simpa [runTop, hs, hfail] using h1
      | false =>
        have h2 := ih s' (fun u hu => h u (List.mem_cons_of_mem t hu))
        have hc := h1.comp h2
        rw [max_self] at hc
        simpa [runTop, hs, hfail] using hc
    | thrown e => simpa [runTop, hs] using h1
    | timeout => simpa [runTop, hs] using h1

/-- The loop of `run` over the requested names keeps the run invariant. -/
theorem step_runNames (reg : Registry) (rank : Task → Nat) (B : Nat)
    (hrank : RankedReg reg rank) (hB : ∀ t ∈ reg, rank t < B) (fuel : Nat) :
    ∀ (names : List String) (s : RS),
      Step reg rank B s (runNames reg fuel names s).2 := by
  intro names
  induction names with
  | nil => intro s; exact Step.refl reg rank B s
  | cons nm rest ih =>
    intro s
    cases hres : resolve_task reg nm none with
    | error e => simpa [runNames, hres] using Step.refl reg rank B s
    | ok ts =>
      have h1 := step_runTop reg rank B hrank hB fuel ts s
        (resolve_mem reg nm none ts hres)
      rcases hts : runTop reg fuel ts s with ⟨o, s'⟩
      rw [hts] at h1
      cases o with
      | ok or =>
        cases or with
        | none =>
          have hc := h1.comp (ih s')
          rw [max_self] at hc
          simpa [runNames, hres, hts] using hc
        | some r => simpa [runNames, hres, hts] using h1
      | thrown e => simpa [runNames, hres, hts] using h1
      | timeout => simpa [runNames, hres, hts] using h1

/-- A whole `run` call, from the fresh per-run state, is one big `Step`. -/
theorem step_run (reg : Registry) (rank : Task → Nat) (B : Nat)
    (hrank : RankedReg reg rank) (hB : ∀ t ∈ reg, rank t < B)
    (fuel : Nat) (names : List String) :
    Step reg rank B ⟨[], []⟩ (run reg fuel names).2 :=
  step_runNames reg rank B hrank hB fuel names ⟨[], []⟩

/-! ### Termination on acyclic registries: the fuel is never exhausted -/

theorem noTimeout_tasksRunWith (step : Task → RS → Out Result × RS) :
    ∀ (l : List Task) (fl : Bool) (s : RS),
      (∀ d ∈ l, ∀ s', (step d s').1 ≠ .timeout) →
      (tasksRunWith step l fl s).1 ≠ .timeout := by
  intro l
  induction l with
  | nil => intro fl s _; simp [tasksRunWith]
  | cons d ds ih =>
    intro fl s h
    rcases hs : step d s with ⟨o, s'⟩
    cases o with
    | ok r =>
      simpa [tasksRunWith, hs] using
        ih (fl || r.is_Failure) s' (fun u hu => h u (List.mem_cons_of_mem d hu))
    | thrown e => simp [tasksRunWith, hs]
    | timeout =>
      have := h d (List.mem_cons_self d ds) s
      rw [hs] at this
      exact absurd rfl this

theorem noTimeout_depsRunWith (reg : Registry)
    (step : Task → RS → Out Result × RS) (parent : Task) :
    ∀ (ds : List String) (fl : Bool) (s : RS),
      (∀ nm ∈ ds, ∀ l, resolve_task reg nm (some parent) = .ok l →
        ∀ d ∈ l, ∀ s', (step d s').1 ≠ .timeout) →
      (depsRunWith reg step parent ds fl s).1 ≠ .timeout := by
  intro ds
  induction ds with
  | nil => intro fl s _; simp [depsRunWith]
  | cons nm rest ih =>
    intro fl s h
    cases hres : resolve_task reg nm (some parent) with
    | error e => simp [depsRunWith, hres]
    | ok ts =>
      have h1 := noTimeout_tasksRunWith step ts fl s
        (fun d hd s' => h nm (List.mem_cons_self nm rest) ts hres d hd s')
      rcases hts : tasksRunWith step ts fl s with ⟨o, s'⟩
      rw [hts] at h1
      cases o with
      | ok f' =>
        simpa [depsRunWith, hres, hts] using
          ih f' s' (fun x hx l hl d hd s'' => h x (List.mem_cons_of_mem nm hx) l hl d hd s'')
      | thrown e => simp [depsRunWith, hres, hts]
      | timeout => exact absurd rfl h1

/-- On a ranked (acyclic) registry, `_run` never exhausts fuel exceeding the
task's rank: the source recursion terminates. -/
theorem noTimeout_taskRun (reg : Registry) (rank : Task → Nat)
    (hrank : RankedReg reg rank) :
    ∀ (fuel : Nat) (t : Task) (s : RS), t ∈ reg → rank t < fuel →
      (taskRun reg fuel t s).1 ≠ .timeout := by
  intro fuel
  induction fuel with
  | zero => intro t s _ hr; exact absurd hr (Nat.not_lt_zero _)
  | succ fuel ih =>
    intro t s ht hr
    cases hl : lookupFin s.finished t with
    | some r => simp [taskRun, hl]
    | none =>
      have hdeps := noTimeout_depsRunWith reg (taskRun reg fuel) t t.deps false s
        (fun nm hnm l hl d hd s' =>
          ih d s' (resolve_mem reg nm (some t) l hl d hd)
            (lt_of_lt_of_le (hrank t ht nm hnm l hl d hd) (Nat.lt_succ_iff.mp hr)))
      rcases hd : depsRunWith reg (taskRun reg fuel) t t.deps false s with ⟨o, s₁⟩
      rw [hd] at hdeps
      cases o with
      | ok failed => simp [taskRun, hl, hd, finalizeTask]
      | thrown e => simp [taskRun, hl, hd]
      | timeout => exact absurd rfl hdeps

theorem noTimeout_runTop (reg : Registry) (rank : Task → Nat) (B : Nat)
    (hrank : RankedReg reg rank) (hB : ∀ t ∈ reg, rank t < B)
    (fuel : Nat) (hf : B ≤ fuel) :
    ∀ (ts : List Task) (s : RS), (∀ t ∈ ts, t ∈ reg) →
      (runTop reg fuel ts s).1 ≠ .timeout := by
  intro ts
  induction ts with
  | nil => intro s _; simp [runTop]
  | cons t ts ih =>
    intro s h
    have ht := h t (List.mem_cons_self t ts)
    have h1 := noTimeout_taskRun reg rank hrank fuel t s ht
      (lt_of_lt_of_le (hB t ht) hf)
    rcases hs : taskRun reg fuel t s with ⟨o, s'⟩
    rw [hs] at h1
    cases o with
    | ok r =>
      cases hfail : r.is_Failure with
      | true => simp [runTop, hs, hfail]
      | false =>
        simpa [runTop, hs, hfail] using
          ih s' (fun u hu => h u (List.mem_cons_of_mem t hu))
    | thrown e => simp [runTop, hs]
    | timeout => exact absurd rfl h1

theorem noTimeout_runNames (reg : Registry) (rank : Task → Nat) (B : Nat)
    (hrank : RankedReg reg rank) (hB : ∀ t ∈ reg, rank t < B)
    (fuel : Nat) (hf : B ≤ fuel) :
    ∀ (names : List String) (s : RS),
      (runNames reg fuel names s).1 ≠ .timeout := by
  intro names
  induction names with
  | nil => intro s; simp [runNames]
  | cons nm rest ih =>
    intro s
    cases hres : resolve_task reg nm none with
    | error e => simp [runNames, hres]
    | ok ts =>
      have h1 := noTimeout_runTop reg rank B hrank hB fuel hf ts s
        (resolve_mem reg nm none ts hres)
      rcases hts : runTop reg fuel ts s with ⟨o, s'⟩
      rw [hts] at h1
      cases o with
      | ok or =>
        cases or with
        | none => simpa [runNames, hres, hts] using ih s'
        | some r => simp [runNames, hres, hts]
      | thrown e => simp [runNames, hres, hts]
      | timeout => exact absurd rfl h1

/-! ### Equational decompositions of the loops -/

/-- Effect of an incoming `failed` flag on the outcome of a dependency loop:
it is only OR-ed into a resolved outcome. -/
def orOut (b : Bool) : Out Bool → Out Bool
  | .ok c => .ok (b || c)
  | .thrown e => .thrown e
  | .timeout => .timeout

theorem orOut_orOut (a b : Bool) (o : Out Bool) :
    orOut a (orOut b o) = orOut (a || b) o := by
  cases o <;> simp [orOut, Bool.or_assoc]

/-- The inner dependency loop never short-circuits on the `failed` flag: an
incoming flag changes neither the traversal nor the final state, only the
OR-ed outcome. -/
theorem tasksRunWith_flag (step : Task → RS → Out Result × RS) :
    ∀ (l : List Task) (b : Bool) (s : RS),
      tasksRunWith step l b s
        = (orOut b (tasksRunWith step l false s).1,
           (tasksRunWith step l false s).2) := by
  intro l
  induction l with
  | nil => intro b s; simp [tasksRunWith, orOut]
  | cons d ds ih =>
    intro b s
    rcases hs : step d s with ⟨o, s'⟩
    cases o with
    | ok r =>
      have h1 := ih (b || r.is_Failure) s'
      have h2 := ih r.is_Failure s'
      simp only [tasksRunWith, hs, Bool.false_or]
      rw [h1, h2, orOut_orOut]
    | thrown e => simp [tasksRunWith, hs, orOut]
    | timeout => simp [tasksRunWith, hs, orOut]

/-- The outer dependency loop never short-circuits on the `failed` flag. -/
theorem depsRunWith_flag (reg : Registry)
    (step : Task → RS → Out Result × RS) (parent : Task) :
    ∀ (ds : List String) (b : Bool) (s : RS),
      depsRunWith reg step parent ds b s
        = (orOut b (depsRunWith reg step parent ds false s).1,
           (depsRunWith reg step parent ds false s).2) := by
  intro ds
  induction ds with
  | nil => intro b s; simp [depsRunWith, orOut]
  | cons nm rest ih =>
    intro b s
    cases hres : resolve_task reg nm (some parent) with
    | error e => simp [depsRunWith, hres, orOut]
    | ok ts =>
      rcases hts : tasksRunWith step ts false s with ⟨o, s'⟩
      have hb := tasksRunWith_flag step ts b s
      rw [hts] at hb
      cases o with
      | ok f' =>
        have hb' : tasksRunWith step ts b s = (.ok (b || f'), s') := by
          simpa [orOut] using hb
        simp only [depsRunWith, hres, hts, hb']
        rw [ih (b || f') s', ih f' s', orOut_orOut]
      | thrown e =>
        have hb' : tasksRunWith step ts b s = (.thrown e, s') := by
          simpa [orOut] using hb
        simp [depsRunWith, hres, hts, hb', orOut]
      | timeout =>
        have hb' : tasksRunWith step ts b s = (.timeout, s') := by
          simpa [orOut] using hb
        simp [depsRunWith, hres, hts, hb', orOut]

/-- Processing a concatenation of dependency patterns is sequential
composition. -/
theorem depsRunWith_append (reg : Registry)
    (step : Task → RS → Out Result × RS) (parent : Task) :
    ∀ (ds₁ ds₂ : List String) (fl : Bool) (s : RS),
      depsRunWith reg step parent (ds₁ ++ ds₂) fl s
        = match depsRunWith reg step parent ds₁ fl s with
          | (.ok f', s') => depsRunWith reg step parent ds₂ f' s'
          | (.thrown e, s') => (.thrown e, s')
          | (.timeout, s') => (.timeout, s') := by
  intro ds₁
  induction ds₁ with
  | nil => intro ds₂ fl s; simp [depsRunWith]
  | cons nm rest ih =>
    intro ds₂ fl s
    cases hres : resolve_task reg nm (some parent) with
    | error e => simp [depsRunWith, hres]
    | ok ts =>
      simp only [List.cons_append, depsRunWith, hres]
      rcases hts : tasksRunWith step ts fl s with ⟨o, s'⟩
      cases o with
      | ok f' => exact ih ds₂ f' s'
      | thrown e => rfl
      | timeout => rfl

/-- Processing a concatenation of top-level resolved tasks is sequential
composition, short-circuiting on the first `Failure`. -/
theorem runTop_append (reg : Registry) (fuel : Nat) :
    ∀ (ts₁ ts₂ : List Task) (s : RS),
      runTop reg fuel (ts₁ ++ ts₂) s
        = match runTop reg fuel ts₁ s with
          | (.ok none, s') => runTop reg fuel ts₂ s'
          | (.ok (some r), s') => (.ok (some r), s')
          | (.thrown e, s') => (.thrown e, s')
          | (.timeout, s') => (.timeout, s') := by
  intro ts₁
  induction ts₁ with
  | nil => intro ts₂ s; simp [runTop]
  | cons t ts s =>
    intro ts₂ s
    rcases hs : taskRun reg fuel t s with ⟨o, s'⟩
    cases o with
    | ok r =>
      cases hfail : r.is_Failure with
      | true => simp [runTop, hs, hfail]
      | false =>
        simp only [List.cons_append, runTop, hs, hfail]
        rename_i ih
        exact ih ts₂ s'
    | thrown e => simp [runTop, hs]
    | timeout => simp [runTop, hs]

/-! ### Splitting and resolution lemmas -/

theorem splitCols_no_colon : ∀ (l : List Char), ':' ∉ l → splitCols l = [l] := by
  intro l
  induction l with
  | nil => intro _; rfl
  | cons c cs ih =>
    intro h
    have hc : ¬ c = ':' := fun he => h (he ▸ List.mem_cons_self c cs)
    have hcs : ':' ∉ cs := fun hm => h (List.mem_cons_of_mem c hm)
    simp [splitCols, hc, ih hcs]

theorem splitCols_append_colon :
    ∀ (l₁ l₂ : List Char), ':' ∉ l₁ →
      splitCols (l₁ ++ ':' :: l₂) = l₁ :: splitCols l₂ := by
  intro l₁
  induction l₁ with
  | nil => intro l₂ _; simp [splitCols]
  | cons c cs ih =>
    intro l₂ h
    have hc : ¬ c = ':' := fun he => h (he ▸ List.mem_cons_self c cs)
    have hcs : ':' ∉ cs := fun hm => h (List.mem_cons_of_mem c hm)
    simp [splitCols, hc, ih l₂ hcs]

theorem splitCols_star (rest : List Char) :
    splitCols ('*' :: ':' :: rest) = ['*'] :: splitCols rest := by
  simp [splitCols]

theorem nameParts_wildcard (sfx : String) (h : ':' ∉ sfx.data) :
    nameParts ("*:" ++ sfx) = ["*", sfx] := by
  unfold nameParts
  have hd : ("*:" ++ sfx).data = '*' :: ':' :: sfx.data := by
    rw [String.data_append]; rfl
  rw [hd, splitCols_star, splitCols_no_colon sfx.data h]
  rfl

theorem nameParts_wildcard_colon (s₁ s₂ : String) (h : ':' ∉ s₁.data) :
    nameParts ("*:" ++ s₁ ++ ":" ++ s₂) = ["*", s₁] := by
  unfold nameParts
  have hd : ("*:" ++ s₁ ++ ":" ++ s₂).data
      = '*' :: ':' :: (s₁.data ++ ':' :: s₂.data) := by
    rw [String.data_append, String.data_append, String.data_append]
    simp
  rw [hd, splitCols_star, splitCols_append_colon s₁.data s₂.data h]
  rfl

theorem nameParts_no_colon (name : String) (h : ':' ∉ name.data) :
    nameParts name = [name] := by
  unfold nameParts
  rw [splitCols_no_colon name.data h]
  rfl

/-- Resolution of a wildcard pattern with a colon-free suffix: exactly the
registry tasks, in registry order, whose names end in `:suffix`. -/
theorem resolve_wildcard (reg : Registry) (parent : Option Task) (sfx : String)
    (h : ':' ∉ sfx.data) :
    resolve_task reg ("*:" ++ sfx) parent
      = .ok (reg.filter (fun t => jsEndsWith t.name (":" ++ sfx))) := by
  unfold resolve_task
  rw [nameParts_wildcard sfx h]
  rfl

/-- Resolution of an unknown, non-wildcard name throws a `BuildError`. -/
theorem resolve_unknown (reg : Registry) (name : String) (parent : Option Task)
    (hw : (nameParts name).headD "" ≠ "*")
    (hf : reg.find? (fun t => t.name == name) = none) :
    resolve_task reg name parent
      = .error (.buildError "build" (unknown_message name parent)) := by
  unfold resolve_task
  rw [if_neg hw, hf]

/-! ### Auxiliary predicates for the claims -/

/-- Whether an awaited `run` outcome is a resolved promise (a returned
`Result`) as opposed to a rejection or exhausted fuel. -/
def returnsResult (o : Out Result) : Bool :=
  match o with
  | .ok _ => true
  | .thrown _ => false
  | .timeout => false

/-- Executable check that `rank` witnesses acyclicity for one task. -/
def rankOKtask (reg : Registry) (rank : Task → Nat) (t : Task) : Bool :=
  t.deps.all (fun nm =>
    match resolve_task reg nm (some t) with
    | .ok l => l.all (fun u => decide (rank u < rank t))
    | .error _ => true)

/-- Executable check that `rank` witnesses acyclicity for the registry. -/
def rankedRegB (reg : Registry) (rank : Task → Nat) : Bool :=
  reg.all (rankOKtask reg rank)

theorem rankedReg_of_B (reg : Registry) (rank : Task → Nat)
    (h : rankedRegB reg rank = true) : RankedReg reg rank := by
  intro t ht nm hnm l hl u hu
  have h1 := (List.all_eq_true.mp h) t ht
  have h2 := (List.all_eq_true.mp h1) nm hnm
  rw [hl] at h2
  exact of_decide_eq_true ((List.all_eq_true.mp h2) u hu)

theorem le_foldr_max (rank : Task → Nat) :
    ∀ (l : List Task) (t : Task), t ∈ l → rank t ≤ (l.map rank).foldr max 0 := by
  intro l
  induction l with
  | nil => intro t ht; exact absurd ht (List.not_mem_nil t)
  | cons x xs ih =>
    intro t ht
    rcases List.mem_cons.mp ht with he | hm
    · subst he; exact le_max_left _ _
    · exact le_trans (ih t hm) (le_max_right _ _)

/-! ### Concrete fixtures used by counterexamples and witnesses -/

/-- A task with no dependencies whose action resolves with `undefined`. -/
def tOK : Task := ⟨"ok", [], some .retUndef⟩

/-- A task whose action rejects. -/
def tBad : Task := ⟨"bad", [], some (.throws (.jsError 0))⟩

/-- A second succeeding task, requested after `tBad`. -/
def tOK2 : Task := ⟨"ok2", [], some .retUndef⟩

/-- A failing dependency. -/
def tA : Task := ⟨"A", [], some (.throws (.jsError 1))⟩

/-- A succeeding sibling dependency. -/
def tB : Task := ⟨"B", [], some .retUndef⟩

/-- A parent depending on a failing and on a succeeding task. -/
def tP : Task := ⟨"P", ["A", "B"], some .retUndef⟩

/-- A task declaring an unregistered dependency. -/
def tT : Task := ⟨"T", ["ghost"], none⟩

/-- A self-cyclic task. -/
def tCyc : Task := ⟨"a", ["a"], none⟩

/-- A task whose name ends in `:x`. -/
def tAX : Task := ⟨"a:x", [], none⟩

/-- A shared dependency with an action. -/
def tShared : Task := ⟨"shared", [], some .retUndef⟩

/-- First dependent of `tShared`. -/
def tD1 : Task := ⟨"d1", ["shared"], some .retUndef⟩

/-- Second dependent of `tShared`. -/
def tD2 : Task := ⟨"d2", ["shared"], some .retUndef⟩

/-- Registry for the memoization witness. -/
def regMemo : Registry := [tShared, tD1, tD2]

/-- Registry with a parent of one failing and one succeeding dependency. -/
def regP : Registry := [tA, tB, tP]

/-- Registry for the top-level short-circuit witness. -/
def regS : Registry := [tOK, tBad, tOK2]

/-- Registry for the wildcard witness, in registration order. -/
def regW : Registry := [⟨"build:js", [], none⟩, ⟨"build:css", [], none⟩, ⟨"lint:js", [], none⟩]

/-- Rank function for `regMemo`. -/
def rankMemo : Task → Nat := fun t => if t.name = "shared" then 0 else 1

/-- Rank function for `regP`. -/
def rankP : Task → Nat := fun t => if t.name = "P" then 1 else 0

/-! ### The claims -/

/-- C1 counterexample: requesting `run(["does-not-exist"])` on an empty
registry does not return a Failure `Result` — the promise rejects with the
thrown `BuildError`, the claimed "returns (not throws)" behavior is false. -/
theorem claimC1_counterexample :
    run [] 5 ["does-not-exist"]
      = (.thrown (.buildError "build" "unknown task 'does-not-exist'"), ⟨[], []⟩) ∧
    returnsResult (run [] 5 ["does-not-exist"]).1 = false :=
  ⟨by decide, by decide⟩

/-- C1 (amended): for every requested first name that is not a wildcard and
is not registered, `run` rejects (throws) with a `BuildError` whose message
identifies the unresolved name and carries no parent-task reference, leaving
the run state untouched; no Failure `Result` is returned. -/
theorem claimC1 (reg : Registry) (fuel : Nat) (name : String) (rest : List String)
    (hw : (nameParts name).headD "" ≠ "*")
    (hf : reg.find? (fun t => t.name == name) = none) :
    run reg fuel (name :: rest)
      = (.thrown (.buildError "build" ("unknown task '" ++ name ++ "'")), ⟨[], []⟩) := by
  have hres := resolve_unknown reg name none hw hf
  simp [run, runNames, hres, unknown_message]

/-- C1 witness: the amended claim at the concrete unknown name. -/
theorem claimC1_witness :
    run [] 5 ["does-not-exist"]
      = (.thrown (.buildError "build" ("unknown task '" ++ "does-not-exist" ++ "'")),
         ⟨[], []⟩) :=
  claimC1 [] 5 "does-not-exist" [] (by decide) (by decide)

/-- C2 counterexample: executing a task `T` whose dependency `ghost` is
unregistered does not produce an overall Failure `Result` for `T` — the
`BuildError` is thrown out of `_run`; nothing is stored in the memoization
cache for `T` and no failure is reported. -/
theorem claimC2_counterexample :
    taskRun [tT] 5 tT ⟨[], []⟩
      = (.thrown (.buildError "build" "unknown task 'ghost' referenced from 'T'"),
         ⟨[], []⟩) ∧
    returnsResult (taskRun [tT] 5 tT ⟨[], []⟩).1 = false ∧
    (taskRun [tT] 5 tT ⟨[], []⟩).2.finished = [] ∧
    (taskRun [tT] 5 tT ⟨[], []⟩).2.events = [] :=
  ⟨by decide, by decide, by decide, by decide⟩

/-- C2 (amended): for every task `T` with a dependency pattern that fails to
resolve (unknown, non-wildcard name), the `UnknownTask` error — whose message
identifies the unresolved name and attributes it to `T` — is thrown out of
`execute(T)` at the point the failing pattern is reached: no dependency
pattern after the failing one is attempted, the state stays exactly as the
earlier dependencies left it, and in particular the failure is neither
converted into a Failure `Result`, nor stored in the memoization cache, nor
reported. -/
theorem claimC2 (reg : Registry) (fuel : Nat) (t : Task) (s : RS)
    (ds₁ ds₂ : List String) (nm : String) (f : Bool) (s₁ : RS)
    (hdeps : t.deps = ds₁ ++ nm :: ds₂)
    (hnc : lookupFin s.finished t = none)
    (hpre : depsRunWith reg (taskRun reg fuel) t ds₁ false s = (.ok f, s₁))
    (hw : (nameParts nm).headD "" ≠ "*")
    (hf : reg.find? (fun u => u.name == nm) = none) :
    taskRun reg (fuel + 1) t s
      = (.thrown (.buildError "build" (unknown_message nm (some t))), s₁) := by
  have hres := resolve_unknown reg nm (some t) hw hf
  have happ : depsRunWith reg (taskRun reg fuel) t (ds₁ ++ nm :: ds₂) false s
      = depsRunWith reg (taskRun reg fuel) t (nm :: ds₂) f s₁ := by
    rw [depsRunWith_append reg (taskRun reg fuel) t ds₁ (nm :: ds₂) false s, hpre]
  simp [taskRun, hnc, hdeps, happ, depsRunWith, hres]

/-- C2 witness: the amended claim at the concrete task `T` with unregistered
dependency `ghost`. -/
theorem claimC2_witness :
    taskRun [tT] 6 tT ⟨[], []⟩
      = (.thrown (.buildError "build" "unknown task 'ghost' referenced from 'T'"),
         ⟨[], []⟩) :=
  (claimC2 [tT] 5 tT ⟨[], []⟩ [] [] "ghost" false ⟨[], []⟩
    (by decide) (by decide) (by decide) (by decide) (by decide)).trans (by decide)

/-- C3 counterexample: with only the task `a:x` registered, the wildcard
pattern `*:x:y` resolves to that task even though its name does not end in
`:x:y` — so the suffix is not "everything after the first colon". -/
theorem claimC3_counterexample :
    resolve_task [tAX] "*:x:y" none = .ok [tAX] ∧
    jsEndsWith tAX.name ":x:y" = false :=
  ⟨rfl, by decide⟩

/-- C3 (amended): `split(":", 2)` truncates the full split to two elements,
so the suffix is the segment between the first and the second colon and
everything from the second colon on is discarded: a wildcard pattern
`*:s₁:s₂` (with `s₁` colon-free) resolves exactly as `*:s₁` does; for a name
without a colon the split yields only the whole name (suffix undefined). -/
theorem claimC3 :
    (∀ (reg : Registry) (parent : Option Task) (s₁ s₂ : String), ':' ∉ s₁.data →
       resolve_task reg ("*:" ++ s₁ ++ ":" ++ s₂) parent
         = resolve_task reg ("*:" ++ s₁) parent) ∧
    (∀ name : String, ':' ∉ name.data → nameParts name = [name]) := by
  constructor
  · intro reg parent s₁ s₂ h
    unfold resolve_task
    rw [nameParts_wildcard_colon s₁ s₂ h, nameParts_wildcard s₁ h]
    simp
  · exact nameParts_no_colon

/-- C3 witness: the amended claim at the concrete pattern `*:x:y`. -/
theorem claimC3_witness :
    resolve_task [tAX] ("*:" ++ "x" ++ ":" ++ "y") none
      = resolve_task [tAX] ("*:" ++ "x") none :=
  claimC3.1 [tAX] none "x" "y" (by decide)

/-- C4: for every task with an action, the executor's result is: a rejection
with error `E` becomes `Failure` carrying exactly `E`; a `void` resolution
becomes `Success(undefined)`; a returned `Result` is passed through
unchanged; and for a dependency-free uncached task this executor result is
exactly the `Result` `_run` produces. -/
theorem claimC4 (t : Task) (a : ActionSpec) (h : t.fn = some a) :
    ((∀ e, a = .throws e → (exec_task t).1 = .failure e) ∧
     (a = .retUndef → (exec_task t).1 = .success .undef) ∧
     (∀ r, a = .retResult r → (exec_task t).1 = r)) ∧
    (∀ (reg : Registry) (fuel : Nat) (s : RS), t.deps = [] →
       lookupFin s.finished t = none →
       (taskRun reg (fuel + 1) t s).1 = .ok (exec_task t).1) := by
  refine ⟨⟨?_, ?_, ?_⟩, ?_⟩
  · intro e he; subst he; simp [exec_task, h]
  · intro he; subst he; simp [exec_task, h]
  · intro r hr; subst hr; simp [exec_task, h]
  · intro reg fuel s hd hnc
    rcases hx : exec_task t with ⟨r0, ev0⟩
    simp [taskRun, hnc, hd, depsRunWith, finalizeTask, hx]

/-- C4 witness: a rejecting action at a concrete task. -/
theorem claimC4_witness :
    (exec_task tBad).1 = .failure (.jsError 0) ∧
    (taskRun [tBad] 3 tBad ⟨[], []⟩).1 = .ok (.failure (.jsError 0)) := by
  constructor
  · exact (claimC4 tBad (.throws (.jsError 0)) rfl).1.1 (.jsError 0) rfl
  · exact ((claimC4 tBad (.throws (.jsError 0)) rfl).2 [tBad] 2 ⟨[], []⟩
      (by decide) (by decide)).trans (by decide)

/-- C5: a cached task returns its cached `Result` immediately with no state
change (all dependents observe the identical `Result`, nothing is re-run or
re-reported), and over a whole run on a registry whose resolved dependency
relation is acyclic (witnessed by a ranking), every task's action is invoked
at most once no matter how often the task is depended on or requested. -/
theorem claimC5 :
    (∀ (reg : Registry) (fuel : Nat) (t : Task) (s : RS) (r : Result),
       lookupFin s.finished t = some r → taskRun reg (fuel + 1) t s = (.ok r, s)) ∧
    (∀ (reg : Registry) (rank : Task → Nat), RankedReg reg rank →
       ∀ (fuel : Nat) (names : List String) (u : Task),
         ((run reg fuel names).2).events.count (.invoked u) ≤ 1) := by
  constructor
  · intro reg fuel t s r h
    simp [taskRun, h]
  · intro reg rank hrank fuel names u
    have hB : ∀ t ∈ reg, rank t < (reg.map rank).foldr max 0 + 1 :=
      fun t ht => Nat.lt_succ_of_le (le_foldr_max rank reg t ht)
    have hs := step_run reg rank ((reg.map rank).foldr max 0 + 1) hrank hB fuel names
    simpa using hs.invOnce u

/-- C5 witness: a concrete cache hit, and the shared dependency of two
dependents invoked at most once over one run. -/
theorem claimC5_witness :
    taskRun [] 2 tOK ⟨[(tOK, .success .undef)], []⟩
      = (.ok (.success .undef), ⟨[(tOK, .success .undef)], []⟩) ∧
    ((run regMemo 5 ["d1", "d2"]).2).events.count (.invoked tShared) ≤ 1 := by
  constructor
  · exact claimC5.1 [] 1 tOK ⟨[(tOK, .success .undef)], []⟩ (.success .undef) (by decide)
  · exact claimC5.2 regMemo rankMemo (rankedReg_of_B regMemo rankMemo (by decide))
      5 ["d1", "d2"] tShared

/-- The state after `tP`'s two dependencies (`tA` fails, `tB` succeeds) have
been processed. -/
def s₁P : RS :=
  ⟨[(tA, .failure (.jsError 1)), (tB, .success .undef)],
   [.started tA, .invoked tA, .finished tA false, .failureShown tA (.jsError 1),
    .started tB, .invoked tB, .finished tB true]⟩

/-- C6: the dependency loop never short-circuits on an earlier sibling
failure — an incoming failed flag changes neither the traversal nor the
state, only the OR-ed outcome — and when the loop finishes with the failed
flag set, the task's own action is not executed: the overall `Result` is the
synthesized `BuildError` failure naming the task itself, and the only
appended event is its failure report. -/
theorem claimC6 :
    (∀ (reg : Registry) (step : Task → RS → Out Result × RS) (parent : Task)
       (ds : List String) (b : Bool) (s : RS),
       depsRunWith reg step parent ds b s
         = (orOut b (depsRunWith reg step parent ds false s).1,
            (depsRunWith reg step parent ds false s).2)) ∧
    (∀ (reg : Registry) (fuel : Nat) (t : Task) (s s₁ : RS),
       lookupFin s.finished t = none →
       depsRunWith reg (taskRun reg fuel) t t.deps false s = (.ok true, s₁) →
       taskRun reg (fuel + 1) t s
         = (.ok (depsFailedResult t),
            ⟨setFin s₁.finished t (depsFailedResult t),
             s₁.events ++ [.failureShown t (.buildError t.name
               ("task '" ++ t.name ++ "' failed"))]⟩)) := by
  constructor
  · exact depsRunWith_flag
  · intro reg fuel t s s₁ hnc hdeps
    simp [taskRun, hnc, hdeps, finalizeTask, depsFailedResult]

/-- C6 witness: `tP` depends on failing `tA` and succeeding `tB`; both were
attempted (the state records `tB`'s invocation after `tA`'s failure), `tP`'s
action is not invoked, and `tP`'s result is the `BuildError` naming `P`. -/
theorem claimC6_witness :
    taskRun regP 6 tP ⟨[], []⟩
      = (.ok (depsFailedResult tP),
         ⟨setFin s₁P.finished tP (depsFailedResult tP),
          s₁P.events ++ [.failureShown tP (.buildError tP.name
            ("task '" ++ tP.name ++ "' failed"))]⟩) :=
  claimC6.2 regP 5 tP ⟨[], []⟩ s₁P (by decide) (by decide)

/-- The state after the successful top-level task `tOK` has run. -/
def sOKState : RS :=
  ⟨[(tOK, .success .undef)], [.started tOK, .invoked tOK, .finished tOK true]⟩

/-- The state after `tOK` succeeded and `tBad` failed. -/
def sBadState : RS :=
  ⟨[(tOK, .success .undef), (tBad, .failure (.jsError 0))],
   [.started tOK, .invoked tOK, .finished tOK true,
    .started tBad, .invoked tBad, .finished tBad false,
    .failureShown tBad (.jsError 0)]⟩

/-- C7: `run` processes the requested names in order: an empty request list
yields `Success(undefined)`; a name whose resolved tasks all succeed passes
its final state to the remaining names; the first resolved task returning a
`Failure` makes that `Failure` the immediate overall result of `run` — with
the state exactly as that task left it, so no later resolved task of the
same wildcard and no later requested name is attempted. -/
theorem claimC7 :
    (∀ (reg : Registry) (fuel : Nat) (s : RS),
       runNames reg fuel [] s = (.ok (.success .undef), s)) ∧
    (∀ (reg : Registry) (fuel : Nat) (nm : String) (rest : List String) (s : RS)
       (ts : List Task) (s₁ : RS),
       resolve_task reg nm none = .ok ts →
       runTop reg fuel ts s = (.ok none, s₁) →
       runNames reg fuel (nm :: rest) s = runNames reg fuel rest s₁) ∧
    (∀ (reg : Registry) (fuel : Nat) (nm : String) (rest : List String) (s : RS)
       (ts : List Task) (r : Result) (s₁ : RS),
       resolve_task reg nm none = .ok ts →
       runTop reg fuel ts s = (.ok (some r), s₁) →
       runNames reg fuel (nm :: rest) s = (.ok r, s₁)) ∧
    (∀ (reg : Registry) (fuel : Nat) (ts₁ : List Task) (t : Task) (ts₂ : List Task)
       (s s₁ : RS) (r : Result) (s₂ : RS),
       runTop reg fuel ts₁ s = (.ok none, s₁) →
       taskRun reg fuel t s₁ = (.ok r, s₂) →
       r.is_Failure = true →
       runTop reg fuel (ts₁ ++ t :: ts₂) s = (.ok (some r), s₂)) := by
  refine ⟨?_, ?_, ?_, ?_⟩
  · intro reg fuel s; simp [runNames]
  · intro reg fuel nm rest s ts s₁ h1 h2
    simp [runNames, h1, h2]
  · intro reg fuel nm rest s ts r s₁ h1 h2
    simp [runNames, h1, h2]
  · intro reg fuel ts₁ t ts₂ s s₁ r s₂ h1 h2 h3
    rw [runTop_append reg fuel ts₁ (t :: ts₂) s, h1]
    simp [runTop, h2, h3]

/-- C7 witness: `run(["ok", "bad", "ok2"])` — `ok` succeeds and hands its
state on, `bad` fails and its failure is returned with `ok2` unattempted. -/
theorem claimC7_witness :
    run regS 5 ["ok", "bad", "ok2"] = (.ok (.failure (.jsError 0)), sBadState) :=
  (claimC7.2.1 regS 5 "ok" ["bad", "ok2"] ⟨[], []⟩ [tOK] sOKState rfl (by decide)).trans
    (claimC7.2.2.1 regS 5 "bad" ["ok2"] sOKState [tBad] (.failure (.jsError 0))
      sBadState rfl (by decide))

/-- C8: a wildcard pattern `*:suffix` resolves to exactly the registered
tasks, in registry order, whose names end with `:suffix`; zero matches is a
legal empty resolution, not an error; and a pattern resolving to zero tasks
is a no-op dependency — the dependency loop continues unchanged. -/
theorem claimC8 :
    (∀ (reg : Registry) (parent : Option Task) (sfx : String), ':' ∉ sfx.data →
       resolve_task reg ("*:" ++ sfx) parent
         = .ok (reg.filter (fun t => jsEndsWith t.name (":" ++ sfx)))) ∧
    (∀ (reg : Registry) (parent : Option Task) (sfx : String), ':' ∉ sfx.data →
       (∀ t ∈ reg, jsEndsWith t.name (":" ++ sfx) = false) →
       resolve_task reg ("*:" ++ sfx) parent = .ok []) ∧
    (∀ (reg : Registry) (step : Task → RS → Out Result × RS) (parent : Task)
       (nm : String) (ds : List String) (fl : Bool) (s : RS),
       resolve_task reg nm (some parent) = .ok [] →
       depsRunWith reg step parent (nm :: ds) fl s = depsRunWith reg step parent ds fl s) := by
  refine ⟨?_, ?_, ?_⟩
  · exact resolve_wildcard
  · intro reg parent sfx h hall
    rw [resolve_wildcard reg parent sfx h]
    have hnil : reg.filter (fun t => jsEndsWith t.name (":" ++ sfx)) = [] :=
      List.filter_eq_nil_iff.mpr (fun a ha => by simp [hall a ha])
    rw [hnil]
  · intro reg step parent nm ds fl s h
    simp [depsRunWith, h, tasksRunWith]

/-- C8 witness: registering `build:js`, `build:css`, `lint:js`, the pattern
`*:js` resolves to exactly `[build:js, lint:js]` in registration order, and
`*:missing` resolves to the empty sequence (not an error). -/
theorem claimC8_witness :
    resolve_task regW ("*:" ++ "js") none
      = .ok [⟨"build:js", [], none⟩, ⟨"lint:js", [], none⟩] ∧
    resolve_task regW ("*:" ++ "missing") none = .ok [] := by
  constructor
  · exact (claimC8.1 regW none "js" (by decide)).trans (by rfl)
  · exact claimC8.2.1 regW none "missing" (by decide) (by decide)

/-- C9: over one run on an acyclic (ranked) registry, start events match
action invocations one-to-one, finish events (with either outcome tag) match
action invocations one-to-one, a task without an action receives no start
event, and each task receives exactly one failure-detail report exactly when
its memoized `Result` is a `Failure` — at first computation, never again on
cache hits. -/
theorem claimC9 (reg : Registry) (rank : Task → Nat) (hrank : RankedReg reg rank)
    (fuel : Nat) (names : List String) :
    (∀ u, ((run reg fuel names).2).events.count (.started u)
       = ((run reg fuel names).2).events.count (.invoked u)) ∧
    (∀ u, ((run reg fuel names).2).events.count (.finished u true)
        + ((run reg fuel names).2).events.count (.finished u false)
       = ((run reg fuel names).2).events.count (.invoked u)) ∧
    (∀ u, u.fn = none → ((run reg fuel names).2).events.count (.started u) = 0) ∧
    (∀ u, cntShown ((run reg fuel names).2).events u
       = match lookupFin ((run reg fuel names).2).finished u with
         | some (.failure _) => 1
         | _ => 0) := by
  have hB : ∀ t ∈ reg, rank t < (reg.map rank).foldr max 0 + 1 :=
    fun t ht => Nat.lt_succ_of_le (le_foldr_max rank reg t ht)
  have hs := step_run reg rank ((reg.map rank).foldr max 0 + 1) hrank hB fuel names
  refine ⟨?_, ?_, ?_, ?_⟩
  · intro u
    have h1 := hs.startInv u
    simpa using h1
  · intro u
    have h1 := hs.finInv u
    simpa using h1
  · intro u hf
    have h1 := hs.noFnInv u hf
    have h2 := hs.startInv u
    simp at h1 h2
    omega
  · intro u
    have h1 := hs.shownInv u
    rcases hx : lookupFin ((run reg fuel names).2).finished u with _ | r
    · simpa [cntShown, shownDelta, lookupFin, hx] using h1
    · cases r with
      | success v => simpa [cntShown, shownDelta, lookupFin, hx] using h1
      | failure e => simpa [cntShown, shownDelta, lookupFin, hx] using h1

/-- C9 witness: running `P` (failing dependency `A`, succeeding `B`): starts
equal invocations for `P`, and `A` — whose memoized result is a Failure —
gets exactly one failure-detail report. -/
theorem claimC9_witness :
    ((run regP 5 ["P"]).2).events.count (.started tP)
      = ((run regP 5 ["P"]).2).events.count (.invoked tP) ∧
    cntShown ((run regP 5 ["P"]).2).events tA = 1 := by
  have h := claimC9 regP rankP (rankedReg_of_B regP rankP (by decide)) 5 ["P"]
  exact ⟨h.1 tP, (h.2.2.2 tA).trans (by decide)⟩

/-- On the self-cyclic registry, `_run` exhausts any amount of fuel and in
particular never writes a cache entry: the task is re-entered before any
entry for it exists. -/
theorem cyc_taskRun :
    ∀ fuel : Nat, taskRun [tCyc] fuel tCyc ⟨[], []⟩ = (.timeout, ⟨[], []⟩) := by
  intro fuel
  induction fuel with
  | zero => rfl
  | succ fuel ih =>
    have hres : resolve_task [tCyc] "a" (some tCyc) = .ok [tCyc] := rfl
    have hdeps : depsRunWith [tCyc] (taskRun [tCyc] fuel) tCyc ["a"] false ⟨[], []⟩
        = (.timeout, ⟨[], []⟩) := by
      simp [depsRunWith, hres, tasksRunWith, ih]
    have hd2 : tCyc.deps = ["a"] := rfl
    simp [taskRun, lookupFin, hd2, hdeps]

/-- C10: on every registry whose resolved dependency relation is acyclic
(witnessed by a ranking bounded by `B`), `run` with fuel at least `B` never
exhausts it — the source recursion terminates; and on the concrete
self-cyclic registry `run` exhausts every amount of fuel while the
memoization cache stays empty, because a task's entry is only written after
its dependencies complete, so the cycle re-enters the task before any entry
exists. -/
theorem claimC10 :
    (∀ (reg : Registry) (rank : Task → Nat) (B : Nat), RankedReg reg rank →
       (∀ t ∈ reg, rank t < B) →
       ∀ (fuel : Nat) (names : List String), B ≤ fuel →
         (run reg fuel names).1 ≠ .timeout) ∧
    (∀ fuel : Nat, run [tCyc] fuel ["a"] = (.timeout, ⟨[], []⟩)) := by
  constructor
  · intro reg rank B hrank hB fuel names hf
    exact noTimeout_runNames reg rank B hrank hB fuel hf names ⟨[], []⟩
  · intro fuel
    have hres : resolve_task [tCyc] "a" none = .ok [tCyc] := rfl
    simp [run, runNames, runTop, hres, cyc_taskRun fuel]

/-- C10 witness: a concrete acyclic run does not time out; the concrete
cyclic run times out with an empty cache at fuel 3. -/
theorem claimC10_witness :
    (run [tOK] 1 ["ok"]).1 ≠ .timeout ∧
    run [tCyc] 3 ["a"] = (.timeout, ⟨[], []⟩) := by
  constructor
  · exact claimC10.1 [tOK] (fun _ => 0) 1
      (rankedReg_of_B [tOK] (fun _ => 0) (by decide)) (by decide) 1 ["ok"] (by decide)
  · exact claimC10.2 3

end TaskRunner
